import Mathlib

/-!
Verification development for the gradcafe analytics pipeline
(modules 2–5).  The definitions below are a shallow embedding of the
Python sources:

* `src/module_5/src/load_data.py` — text extractors (`extract_term`,
  `extract_status`, `extract_us_intl`, `extract_gpa_gre`,
  `normalize_degree`, `clean_text`, `to_float`, `parse_date`) and the
  ETL entry point `main` with `ensure_index` and the
  `ON CONFLICT DO NOTHING` insert;
* `src/module_2/clean.py` — the variant nationality extractor
  `_extract_us_intl` (which additionally recognises `Other`);
* `src/module_5/src/app.py` — the Flask handlers `pull_data` /
  `update_analysis`, the `_pull_worker` completion logic and the shared
  pull-running flag, modelled as a state machine.

Python strings are modelled as `String`/`List Char`; `None` as
`Option.none`; Python floats as `ℚ` (all numbers involved are decimal
literals parsed from text); the regexes are embedded as bespoke
backtracking matchers that mirror each pattern, including `re.IGNORECASE`,
word boundaries, greedy repetition and alternation order.
-/

namespace GradCafe

/-! ## ASCII character helpers (fragments of `str.lower`, `str.upper`,
`str.isspace`, `\w`, `\s`, `\d` used by the regexes; inputs are ASCII). -/

/-- ASCII fragment of Python `str.lower` (used by `re.IGNORECASE` folding,
`.lower()` and `.title()`). -/
def lowerChar (c : Char) : Char :=
  if 65 ≤ c.toNat ∧ c.toNat ≤ 90 then Char.ofNat (c.toNat + 32) else c

/-- ASCII fragment of Python `str.upper`. -/
def upperChar (c : Char) : Char :=
  if 97 ≤ c.toNat ∧ c.toNat ≤ 122 then Char.ofNat (c.toNat - 32) else c

/-- ASCII letter test (Python `str.isalpha` on the relevant inputs). -/
def isAlphaChar (c : Char) : Bool :=
  decide ((65 ≤ c.toNat ∧ c.toNat ≤ 90) ∨ (97 ≤ c.toNat ∧ c.toNat ≤ 122))

/-- Regex `\d`: ASCII digit. -/
def isDigitChar (c : Char) : Bool :=
  decide (48 ≤ c.toNat ∧ c.toNat ≤ 57)

/-- Regex `\w` (ASCII): letters, digits, underscore. -/
def isWordChar (c : Char) : Bool :=
  isAlphaChar c || isDigitChar c || c == '_'

/-- Regex `\s` / Python `str.strip` whitespace (ASCII): space, tab,
newline, carriage return, vertical tab, form feed. -/
def isSpaceChar (c : Char) : Bool :=
  decide (c.toNat = 32 ∨ c.toNat = 9 ∨ c.toNat = 10 ∨ c.toNat = 13 ∨
    c.toNat = 11 ∨ c.toNat = 12)

/-- The ASCII apostrophe, written via its code point. -/
def aposChar : Char := Char.ofNat 39

/-- Python `str.title` (ASCII): a character is uppercased when the
previous character is not a letter, lowercased otherwise. -/
def pyTitleGo (prevAlpha : Bool) : List Char → List Char
  | [] => []
  | c :: cs => (if prevAlpha then lowerChar c else upperChar c) :: pyTitleGo (isAlphaChar c) cs

/-- Python `str.title` on a character list. -/
def pyTitle (s : List Char) : List Char := pyTitleGo false s

/-- Python `str.strip` (both ends, ASCII whitespace). -/
def pyStrip (s : List Char) : List Char :=
  ((s.dropWhile isSpaceChar).reverse.dropWhile isSpaceChar).reverse

/-! ## Regex matching primitives

A match position is represented by the pair of the character preceding
the position (`prev`, `none` at the start of the text) and the remaining
suffix.  `re.search` scans candidate start positions left to right. -/

/-- Whether an optional character is a `\w` word character. -/
def isWordO : Option Char → Bool
  | some c => isWordChar c
  | none => false

/-- Regex `\b`: exactly one side of the position is a word character. -/
def atBoundary (prev : Option Char) (s : List Char) : Bool :=
  isWordO prev != isWordO s.head?

/-- Case-insensitive literal match (regex literal under `re.IGNORECASE`):
returns the matched source characters and the remaining suffix. -/
def litCI : List Char → List Char → Option (List Char × List Char)
  | [], s => some ([], s)
  | _ :: _, [] => none
  | l :: ls, c :: cs =>
    if lowerChar c = lowerChar l then
      match litCI ls cs with
      | some (m, r) => some (c :: m, r)
      | none => none
    else none

/-- The `prev` character after consuming the characters `m`. -/
def newPrev (prev : Option Char) (m : List Char) : Option Char :=
  match m.getLast? with
  | some c => some c
  | none => prev

/-- First `some` in a list of alternatives (regex alternation order). -/
def firstSome {α : Type} : List (Option α) → Option α
  | [] => none
  | some a :: _ => some a
  | none :: rest => firstSome rest

/-- Greedy deterministic `\s*`: consume the maximal run of whitespace
(used where the following regex token cannot match whitespace, so
backtracking into the run can never help). -/
def skipSpacesMax : Option Char → List Char → Option Char × List Char
  | prev, [] => (prev, [])
  | prev, c :: cs => if isSpaceChar c then skipSpacesMax (some c) cs else (prev, c :: cs)

/-- Optional `[:=]?` (greedy, deterministic: the next token is never
`:`/`=`). -/
def skipColonEq : Option Char → List Char → Option Char × List Char
  | prev, [] => (prev, [])
  | prev, c :: cs => if c = ':' ∨ c = '=' then (some c, cs) else (prev, c :: cs)

/-- Generic `re.search` scan: try the position matcher at every start
position from left to right, returning the first success. -/
def searchO {α : Type} (f : Option Char → List Char → Option α) :
    Option Char → List Char → Option α
  | prev, [] => f prev []
  | prev, c :: cs =>
    match f prev (c :: cs) with
    | some r => some r
    | none => searchO f (some c) cs

/-! ## Text normalizer (`clean_text`, `to_float`) -/

/-- Character-list core of `clean_text`: remove NUL bytes, strip, empty
becomes absent. -/
def cleanChars (s : List Char) : Option (List Char) :=
  let t := pyStrip (s.filter (fun c => c ≠ Char.ofNat 0))
  if t = [] then none else some t

/-- The `clean_text` from `load_data.py` (string case; `None` is handled by
callers via `Option.bind`). -/
def clean_text (s : String) : Option String :=
  (cleanChars s.data).map List.asString

/-- The `clean_text` lifted to optional input (`clean_text(None) = None`). -/
def cleanTextO (x : Option String) : Option String :=
  x.bind clean_text

/-- Digit value of an ASCII digit. -/
def digitVal (c : Char) : Nat := c.toNat - 48

/-- Value of a digit string. -/
def natOfDigits (l : List Char) : Nat :=
  l.foldl (fun a c => a * 10 + digitVal c) 0

/-- The decimal-literal fragment of Python `float()` that the regex
captures can produce: `digits`, `digits.digits`, `digits.` or `.digits`
(at least one digit overall). -/
def parseFloatLit (s : List Char) : Option ℚ :=
  let as := s.takeWhile (fun c => c ≠ '.')
  match s.drop as.length with
  | [] =>
    if as ≠ [] ∧ as.all isDigitChar then some (mkRat (natOfDigits as) 1) else none
  | _ :: bs =>
    if as.all isDigitChar ∧ bs.all isDigitChar ∧ (as ≠ [] ∨ bs ≠ []) then
      some (mkRat (natOfDigits as * 10 ^ bs.length + natOfDigits bs) (10 ^ bs.length))
    else none

/-- Character-list core of `to_float` (string case): clean, drop commas,
parse; `None` on failure — never raises. -/
def toFloatChars (s : List Char) : Option ℚ :=
  match cleanChars s with
  | none => none
  | some t => parseFloatLit (t.filter (fun c => c ≠ ','))

/-- The `to_float` from `load_data.py` on an optional string input. -/
def to_float (x : Option String) : Option ℚ :=
  x.bind (fun s => toFloatChars s.data)

/-! ## Term extraction (`TERM_FULL_RE`, `TERM_SHORT_RE`, `extract_term`) -/

/-- Season alternatives of `TERM_FULL_RE`, in alternation order
(lower-cased; `litCI` folds case). -/
def seasonAlts : List (List Char) :=
  ["fall".data, "spring".data, "summer".data, "winter".data, "autumn".data]

/-- Optional `[']?` apostrophe class of the term regexes (both class
members in the source are the ASCII apostrophe). -/
def skipApos : Option Char → List Char → Option Char × List Char
  | prev, [] => (prev, [])
  | prev, c :: cs => if c = aposChar then (some c, cs) else (prev, c :: cs)

/-- The `\s*[']?\s*` separator of the term regexes (deterministic: the next
token is a digit, never whitespace or an apostrophe). -/
def termSep (prev : Option Char) (s : List Char) : Option Char × List Char :=
  let (p1, r1) := skipSpacesMax prev s
  let (p2, r2) := skipApos p1 r1
  skipSpacesMax p2 r2

/-- Two-digit year `(\d{2})\b` (second alternative of the year group of
`TERM_FULL_RE`, and the year group of `TERM_SHORT_RE`). -/
def twoDigitYear (s : List Char) : Option (List Char) :=
  match s with
  | x :: y :: r =>
    if isDigitChar x ∧ isDigitChar y ∧ atBoundary (some y) r then some [x, y] else none
  | _ => none

/-- Year tail `(20\d{2}|\d{2})\b` of `TERM_FULL_RE`: try the four-digit
alternative first, then the two-digit one, each followed by `\b`. -/
def yearTail (s : List Char) : Option (List Char) :=
  let four : Option (List Char) :=
    match s with
    | '2' :: '0' :: a :: b :: rest =>
      if isDigitChar a ∧ isDigitChar b ∧ atBoundary (some b) rest then some ['2', '0', a, b]
      else none
    | _ => none
  match four with
  | some y => some y
  | none => twoDigitYear s

/-- The `TERM_FULL_RE` at one position: `\b(Season)\s*[']?\s*(20\d{2}|\d{2})\b`,
returning the season and year captures. -/
def termFullAt (prev : Option Char) (s : List Char) : Option (List Char × List Char) :=
  if atBoundary prev s then
    firstSome (seasonAlts.map (fun alt =>
      match litCI alt s with
      | some (m, r) =>
        match yearTail (termSep (newPrev prev m) r).2 with
        | some y => some (m, y)
        | none => none
      | none => none))
  else none

/-- The `TERM_FULL_RE.search`. -/
def termFullSearch (t : List Char) : Option (List Char × List Char) :=
  searchO termFullAt none t

/-- Code alternatives `(F|S|SU|W)` of `TERM_SHORT_RE`, in alternation
order. -/
def shortAlts : List (List Char) := [['f'], ['s'], ['s', 'u'], ['w']]

/-- The `TERM_SHORT_RE` at one position: `\b(F|S|SU|W)\s*[']?\s*(\d{2})\b`. -/
def termShortAt (prev : Option Char) (s : List Char) : Option (List Char × List Char) :=
  if atBoundary prev s then
    firstSome (shortAlts.map (fun alt =>
      match litCI alt s with
      | some (m, r) =>
        match twoDigitYear (termSep (newPrev prev m) r).2 with
        | some y => some (m, y)
        | none => none
      | none => none))
  else none

/-- The `TERM_SHORT_RE.search`. -/
def termShortSearch (t : List Char) : Option (List Char × List Char) :=
  searchO termShortAt none t

/-- The `TERM_MAP` from `load_data.py`. -/
def TERM_MAP (code : List Char) : Option (List Char) :=
  if code = ['F'] then some "Fall".data
  else if code = ['S'] then some "Spring".data
  else if code = ['S', 'U'] then some "Summer".data
  else if code = ['W'] then some "Winter".data
  else none

/-- Result of the shorthand fallback pass of `extract_term`. -/
def termShortResult (t : List Char) : Option String :=
  match termShortSearch t with
  | some (m, y2) =>
    let code := m.map upperChar
    match TERM_MAP code with
    | some season => some (season ++ (' ' :: '2' :: '0' :: y2)).asString
    | none => none
  | none => none

/-- Result derived from a full-form match of `extract_term`:
title-case the season, expand a two-digit year to `20YY`, map `Autumn`
to `Fall`. -/
def termFullResult (m : List Char × List Char) : String :=
  let season := pyTitle m.1
  let year := if m.2.length = 2 then '2' :: '0' :: m.2 else m.2
  let season := if season = "Autumn".data then "Fall".data else season
  (season ++ ' ' :: year).asString

/-- The `extract_term` from `load_data.py`. -/
def extract_term (text : String) : Option String :=
  match termFullSearch text.data with
  | some m => some (termFullResult m)
  | none => termShortResult text.data

/-! ## Status and nationality (`DECISION_RE`, `extract_status`,
`AMERICAN_RE`, `INTL_RE`, `extract_us_intl`, module_2 `OTHER_RE`,
`_extract_us_intl`) -/

/-- Alternatives of `DECISION_RE`, in alternation order (lower-cased). -/
def decisionAlts : List (List Char) :=
  ["accepted".data, "rejected".data, "waitlisted".data, "wait listed".data,
   "interview".data]

/-- The `DECISION_RE` at one position: `\b(alt)\b`, returning the matched
source characters (group 1). -/
def decisionAt (prev : Option Char) (s : List Char) : Option (List Char) :=
  if atBoundary prev s then
    firstSome (decisionAlts.map (fun alt =>
      match litCI alt s with
      | some (m, r) => if atBoundary (newPrev prev m) r then some m else none
      | none => none))
  else none

/-- The `DECISION_RE.search`. -/
def decisionSearch (t : List Char) : Option (List Char) :=
  searchO decisionAt none t

/-- Post-processing of `extract_status`: lower-case, drop spaces, map to
`Waitlisted` or title-case the raw group. -/
def statusFrom (m : List Char) : List Char :=
  let raw := (m.map lowerChar).filter (fun c => c ≠ ' ')
  if raw = "waitlisted".data then "Waitlisted".data else pyTitle m

/-- The `extract_status` from `load_data.py`. -/
def extract_status (text : String) : Option String :=
  match decisionSearch text.data with
  | some m => some (statusFrom m).asString
  | none => none

/-- A single case-insensitive word with boundaries, `\bword\b`, at one
position. -/
def wordAt (lit : List Char) (prev : Option Char) (s : List Char) : Bool :=
  atBoundary prev s &&
    match litCI lit s with
    | some (m, r) => atBoundary (newPrev prev m) r
    | none => false

/-- Boolean `re.search` scan. -/
def searchB (f : Option Char → List Char → Bool) : Option Char → List Char → Bool
  | prev, [] => f prev []
  | prev, c :: cs => f prev (c :: cs) || searchB f (some c) cs

/-- The `\bword\b` search (the shape of `AMERICAN_RE`, `INTL_RE`,
`OTHER_RE`). -/
def wordSearch (lit : List Char) (t : List Char) : Bool :=
  searchB (wordAt lit) none t

/-- The `INTL_RE.search` as a predicate on the text. -/
def hasIntl (t : List Char) : Bool := wordSearch "international".data t

/-- The `AMERICAN_RE.search` as a predicate on the text. -/
def hasAmerican (t : List Char) : Bool := wordSearch "american".data t

/-- module_2 `OTHER_RE.search` as a predicate on the text. -/
def hasOther (t : List Char) : Bool := wordSearch "other".data t

/-- The `extract_us_intl` from `module_5/src/load_data.py`: `International`
before `American`; no `Other` branch. -/
def extract_us_intl (text : String) : Option String :=
  if hasIntl text.data then some "International"
  else if hasAmerican text.data then some "American"
  else none

/-- The `_extract_us_intl` from `module_2/clean.py`: additionally recognises
`Other` after the two other labels. -/
def extract_us_intl_m2 (text : String) : Option String :=
  if text = "" then none
  else if hasIntl text.data then some "International"
  else if hasAmerican text.data then some "American"
  else if hasOther text.data then some "Other"
  else none

/-! ## GPA / GRE extraction (`GPA_RE`, `GRE_Q_RE`, `GRE_V_RE`,
`GRE_AW_RE`, `extract_gpa_gre`) -/

/-- Existence of a split of the leading whitespace run (`\s*` with full
backtracking): does some number of consumed whitespace characters let
the continuation succeed? -/
def trySpaceSplits (prev : Option Char) (s : List Char)
    (k : Option Char → List Char → Bool) : Bool :=
  k prev s ||
    match s with
    | c :: cs => isSpaceChar c && trySpaceSplits (some c) cs k
    | [] => false

/-- Suffix `(?:GPA)?\b` of `GPA_RE` (either alternative may succeed). -/
def gpaSuffixGPA (prev : Option Char) (s : List Char) : Bool :=
  (match litCI "gpa".data s with
   | some (m, r) => atBoundary (newPrev prev m) r
   | none => false) ||
  atBoundary prev s

/-- Part `s\s*` following `master` and the optional apostrophe in
`GPA_RE`, then the `(?:GPA)?\b` suffix. -/
def gpaAfterApos (s : List Char) : Bool :=
  match s with
  | c :: cs => lowerChar c = 's' && trySpaceSplits (some c) cs gpaSuffixGPA
  | [] => false

/-- Suffix `(?:master'?s\s*)?(?:GPA)?\b` of `GPA_RE`. -/
def gpaSuffixMasters (prev : Option Char) (s : List Char) : Bool :=
  (match litCI "master".data s with
   | some (_, r) =>
     (match r with
      | c :: cs => c = aposChar && gpaAfterApos cs
      | [] => false) ||
     gpaAfterApos r
   | none => false) ||
  gpaSuffixGPA prev s

/-- Suffix `\s*(?:master'?s\s*)?(?:GPA)?\b` of `GPA_RE`. -/
def gpaSuffix (prev : Option Char) (s : List Char) : Bool :=
  trySpaceSplits prev s gpaSuffixMasters

/-- Capture group `([0-4]\.\d{1,2})` of `GPA_RE` with its suffix: the
two-digit decimal is tried first (greedy `\d{1,2}`), falling back to one
digit when the suffix fails. -/
def gpaCore (s : List Char) : Option (List Char) :=
  match s with
  | c :: rest0 =>
    if 48 ≤ c.toNat ∧ c.toNat ≤ 52 then
      match rest0 with
      | dot :: rest1 =>
        if dot = '.' then
          match rest1 with
          | d :: rest2 =>
            if isDigitChar d then
              match rest2 with
              | e :: rest3 =>
                if isDigitChar e then
                  if gpaSuffix (some e) rest3 then some [c, dot, d, e]
                  else if gpaSuffix (some d) rest2 then some [c, dot, d]
                  else none
                else if gpaSuffix (some d) rest2 then some [c, dot, d] else none
              | [] => if gpaSuffix (some d) [] then some [c, dot, d] else none
            else none
          | [] => none
        else none
      | [] => none
    else none
  | [] => none

/-- The separator `\s*[:=]?\s*` after a field label (deterministic:
the token that follows is always a digit). -/
def sepSpColSp (prev : Option Char) (s : List Char) : Option Char × List Char :=
  let a := skipSpacesMax prev s
  let b := skipColonEq a.1 a.2
  skipSpacesMax b.1 b.2

/-- The labelled attempt of `GPA_RE`: literal `GPA`, the separator, then
the capture group with its suffix. -/
def gpaLabelled (prev : Option Char) (s : List Char) : Option (List Char) :=
  match litCI "gpa".data s with
  | some (m, r) => gpaCore (sepSpColSp (newPrev prev m) r).2
  | none => none

/-- The `GPA_RE` at one position:
`\b(?:GPA\s*[:=]?\s*)?([0-4]\.\d{1,2})\s*(?:master'?s\s*)?(?:GPA)?\b`.
The optional `GPA` label prefix is tried first; on failure the capture
is attempted at the same position (the separators after the label are
deterministic because the capture starts with a digit). -/
def gpaAt (prev : Option Char) (s : List Char) : Option (List Char) :=
  if atBoundary prev s then
    match gpaLabelled prev s with
    | some cap => some cap
    | none => gpaCore s
  else none

/-- The `GPA_RE.search`. -/
def gpaSearch (t : List Char) : Option (List Char) :=
  searchO gpaAt none t

/-- Tail `\s*[:=]?\s*(\d{3})\b` shared by the labelled branches of
`GRE_Q_RE` and `GRE_V_RE` (the separators are deterministic because the
capture starts with a digit). -/
def greTail (prev : Option Char) (r : List Char) : Option (List Char) :=
  let (p1, r1) := skipSpacesMax prev r
  let (p2, r2) := skipColonEq p1 r1
  match (skipSpacesMax p2 r2).2 with
  | a :: b :: c :: rest =>
    if isDigitChar a ∧ isDigitChar b ∧ isDigitChar c ∧ atBoundary (some c) rest then some [a, b, c]
    else none
  | _ => none

/-- Labelled branch `\b(?:GRE\s*)?(?:labels)\s*[:=]?\s*(\d{3})\b` of the
GRE regexes.  `labels` lists the expanded label alternatives in the
order Python explores them (`Q(?:uant)?` greedily tries `quant` before
`q`). -/
def greLabelled (labels : List (List Char)) (prev : Option Char) (s : List Char) :
    Option (List Char) :=
  if atBoundary prev s then
    let withGre : Option (List Char) :=
      match litCI "gre".data s with
      | some (m, r) =>
        let (p1, r1) := skipSpacesMax (newPrev prev m) r
        firstSome (labels.map (fun lab =>
          match litCI lab r1 with
          | some (m2, r2) => greTail (newPrev p1 m2) r2
          | none => none))
      | none => none
    match withGre with
    | some cap => some cap
    | none =>
      firstSome (labels.map (fun lab =>
        match litCI lab s with
        | some (m2, r2) => greTail (newPrev prev m2) r2
        | none => none))
  else none

/-- Trailing branch `\b(\d{3})\s*L\b` of the GRE regexes, with `L` the
trailing letter (`Q` or `V`). -/
def greTrailing (letter : Char) (prev : Option Char) (s : List Char) :
    Option (List Char) :=
  if atBoundary prev s then
    match s with
    | a :: b :: c :: rest =>
      if isDigitChar a ∧ isDigitChar b ∧ isDigitChar c then
        match (skipSpacesMax (some c) rest).2 with
        | d :: rest2 =>
          if lowerChar d = letter ∧ atBoundary (some d) rest2 then some [a, b, c]
          else none
        | [] => none
      else none
    | _ => none
  else none

/-- Label alternatives of `GRE_Q_RE`:
`Q(?:uant)?|Quant|Quantitative` in exploration order. -/
def qLabels : List (List Char) :=
  ["quant".data, ['q'], "quant".data, "quantitative".data]

/-- Label alternatives of `GRE_V_RE`: `V(?:erb)?|Verbal`. -/
def vLabels : List (List Char) :=
  ["verb".data, ['v'], "verbal".data]

/-- The `GRE_Q_RE` at one position (labelled branch first, then the
trailing-`Q` branch). -/
def greQAt (prev : Option Char) (s : List Char) : Option (List Char) :=
  match greLabelled qLabels prev s with
  | some cap => some cap
  | none => greTrailing 'q' prev s

/-- The `GRE_V_RE` at one position. -/
def greVAt (prev : Option Char) (s : List Char) : Option (List Char) :=
  match greLabelled vLabels prev s with
  | some cap => some cap
  | none => greTrailing 'v' prev s

/-- Label alternatives of `GRE_AW_RE`: `AWA|AW|Analytical Writing`. -/
def awLabels : List (List Char) :=
  ["awa".data, "aw".data, "analytical writing".data]

/-- The `GRE_AW_RE` at one position:
`\b(?:AWA|AW|Analytical Writing)\s*[:=]?\s*([0-6]\.\d)\b`. -/
def awAt (prev : Option Char) (s : List Char) : Option (List Char) :=
  if atBoundary prev s then
    firstSome (awLabels.map (fun lab =>
      match litCI lab s with
      | some (m, r) =>
        let (p1, r1) := skipSpacesMax (newPrev prev m) r
        let (p2, r2) := skipColonEq p1 r1
        match (skipSpacesMax p2 r2).2 with
        | c :: dot :: d :: rest =>
          if 48 ≤ c.toNat ∧ c.toNat ≤ 54 ∧ dot = '.' ∧ isDigitChar d ∧
              atBoundary (some d) rest then
            some [c, dot, d]
          else none
        | _ => none
      | none => none))
  else none

/-- The `extract_gpa_gre` from `load_data.py`: four independent regex
searches over the same text, each capture converted with `to_float`
(which fails soft to `none`). -/
def extract_gpa_gre (text : String) :
    Option ℚ × Option ℚ × Option ℚ × Option ℚ :=
  let t := text.data
  ((gpaSearch t).bind toFloatChars,
   (searchO greQAt none t).bind toFloatChars,
   (searchO greVAt none t).bind toFloatChars,
   (searchO awAt none t).bind toFloatChars)

/-! ## Degree normalisation (`normalize_degree`) -/

/-- Python substring test (`needle in hay`). -/
def containsSub (needle : List Char) : List Char → Bool
  | [] => decide (needle = [])
  | c :: cs => needle.isPrefixOf (c :: cs) || containsSub needle cs

/-- The `normalize_degree` from `load_data.py`. -/
def normalize_degree (x : Option String) : Option String :=
  match cleanTextO x with
  | none => none
  | some s =>
    let lo := s.data.map lowerChar
    if containsSub "phd".data lo ∨ containsSub "ph.d".data lo ∨
        containsSub "doctor".data lo then some "PhD"
    else if containsSub "master".data lo ∨
        lo ∈ ["ms".data, "m.s.".data, "msc".data, "mcs".data, "meng".data] then
      some "Masters"
    else if containsSub "bachelor".data lo ∨ lo ∈ ["bs".data, "b.s.".data] then
      some "Bachelors"
    else some s

/-! ## Date parsing (`parse_date`)

`datetime.strptime` with the four formats `"%B %d, %Y"`, `"%b %d, %Y"`,
`"%Y-%m-%d"`, `"%m/%d/%Y"`: month names match case-insensitively, a
space in the format matches one or more whitespace characters, `%d`/`%m`
match one or two digits (two-digit forms tried first, with regex
backtracking), `%Y` matches exactly four digits, the whole string must
be consumed, and the resulting calendar date must be valid (otherwise the
format fails and the next one is tried). -/

/-- A calendar date as produced by `datetime.date`. -/
structure PyDate where
  year : Nat
  month : Nat
  day : Nat
deriving DecidableEq

/-- Full month names (`%B`), lower-cased. -/
def monthFull : List (List Char) :=
  ["january".data, "february".data, "march".data, "april".data, "may".data,
   "june".data, "july".data, "august".data, "september".data, "october".data,
   "november".data, "december".data]

/-- Abbreviated month names (`%b`), lower-cased. -/
def monthAbbr : List (List Char) :=
  ["jan".data, "feb".data, "mar".data, "apr".data, "may".data, "jun".data,
   "jul".data, "aug".data, "sep".data, "oct".data, "nov".data, "dec".data]

/-- Match one month name from `names` (1-based month number) as a prefix
of the input, case-insensitively. -/
def matchMonthGo (names : List (List Char)) (i : Nat) (s : List Char) :
    Option (Nat × List Char) :=
  match names with
  | [] => none
  | n :: rest =>
    match litCI n s with
    | some (_, r) => some (i, r)
    | none => matchMonthGo rest (i + 1) s

/-- A space in a `strptime` format: one or more whitespace characters
(greedy; the following token is never whitespace). -/
def skipWs1 (s : List Char) : Option (List Char) :=
  match s with
  | c :: cs => if isSpaceChar c then some (skipSpacesMax (some c) cs).2 else none
  | [] => none

/-- Two-digit numeric field candidate (`%d`: `3[01]|[12]\d|0[1-9]`,
`%m`: `1[0-2]|0[1-9]`): two digits with value in `1..hi`. -/
def twoDigitAlt (hi : Nat) (s : List Char) : Option (Nat × List Char) :=
  match s with
  | a :: b :: r =>
    if isDigitChar a ∧ isDigitChar b ∧ 1 ≤ 10 * digitVal a + digitVal b ∧
        10 * digitVal a + digitVal b ≤ hi then
      some (10 * digitVal a + digitVal b, r)
    else none
  | _ => none

/-- One-digit numeric field candidate (`[1-9]`). -/
def oneDigitAlt (s : List Char) : Option (Nat × List Char) :=
  match s with
  | a :: r => if isDigitChar a ∧ 1 ≤ digitVal a then some (digitVal a, r) else none
  | _ => none

/-- The `%d` candidates in regex exploration order. -/
def dayAlts (s : List Char) : List (Nat × List Char) :=
  (match twoDigitAlt 31 s with | some p => [p] | none => []) ++
  (match oneDigitAlt s with | some p => [p] | none => [])

/-- The `%m` candidates in regex exploration order. -/
def monthAlts (s : List Char) : List (Nat × List Char) :=
  (match twoDigitAlt 12 s with | some p => [p] | none => []) ++
  (match oneDigitAlt s with | some p => [p] | none => [])

/-- The `%Y` at the end of a format: the whole remaining input must be
exactly four digits (CPython's `%Y` pattern is `\d\d\d\d`). -/
def parseYearTail (s : List Char) : Option Nat :=
  if s.length = 4 ∧ s.all isDigitChar then some (natOfDigits s) else none

/-- Gregorian leap year (as in `datetime`). -/
def isLeap (y : Nat) : Bool := decide (y % 4 = 0 ∧ (y % 100 ≠ 0 ∨ y % 400 = 0))

/-- Days in a month (as in `datetime`). -/
def daysInMonth (y m : Nat) : Nat :=
  if m = 2 then (if isLeap y then 29 else 28)
  else if m ∈ [4, 6, 9, 11] then 30 else 31

/-- The `datetime.date` construction: validates the calendar date, failing
(`ValueError`, caught by `parse_date`) on an invalid one. -/
def mkDate (y m d : Nat) : Option PyDate :=
  if 1 ≤ y ∧ y ≤ 9999 ∧ 1 ≤ m ∧ m ≤ 12 ∧ 1 ≤ d ∧ d ≤ daysInMonth y m then
    some ⟨y, m, d⟩
  else none

/-- Formats `"%B %d, %Y"` / `"%b %d, %Y"` (month names from `names`). -/
def parseMonthNameFmt (names : List (List Char)) (s : List Char) : Option PyDate :=
  match matchMonthGo names 1 s with
  | some (m, r1) =>
    (match skipWs1 r1 with
     | some r2 =>
       firstSome ((dayAlts r2).map (fun (p : Nat × List Char) =>
         match p.2 with
         | ',' :: r4 =>
           (skipWs1 r4).bind (fun r5 => (parseYearTail r5).map (fun y => (p.1, y)))
         | _ => none))
     | none => none).bind (fun dy => mkDate dy.2 m dy.1)
  | none => none

/-- Format `"%Y-%m-%d"`. -/
def parseIso (s : List Char) : Option PyDate :=
  let ds := s.takeWhile isDigitChar
  if ds.length = 4 then
    (match s.drop ds.length with
     | '-' :: r1 =>
       firstSome ((monthAlts r1).map (fun (p : Nat × List Char) =>
         match p.2 with
         | '-' :: r2 =>
           firstSome ((dayAlts r2).map (fun (q : Nat × List Char) =>
             if q.2 = [] then some (p.1, q.1) else none))
         | _ => none))
     | _ => none).bind (fun md => mkDate (natOfDigits ds) md.1 md.2)
  else none

/-- Format `"%m/%d/%Y"`. -/
def parseSlash (s : List Char) : Option PyDate :=
  (firstSome ((monthAlts s).map (fun (p : Nat × List Char) =>
    match p.2 with
    | '/' :: r1 =>
      firstSome ((dayAlts r1).map (fun (q : Nat × List Char) =>
        match q.2 with
        | '/' :: r2 => (parseYearTail r2).map (fun y => (p.1, q.1, y))
        | _ => none))
    | _ => none))).bind (fun t => mkDate t.2.2 t.1 t.2.1)

/-- The `parse_date` from `load_data.py`: clean, then try the four formats
in order; `None` when all fail. -/
def parse_date (value : Option String) : Option PyDate :=
  match cleanTextO value with
  | none => none
  | some s =>
    match parseMonthNameFmt monthFull s.data with
    | some d => some d
    | none =>
      match parseMonthNameFmt monthAbbr s.data with
      | some d => some d
      | none =>
        match parseIso s.data with
        | some d => some d
        | none => parseSlash s.data

/-! ## Storage model and the loader (`ensure_index`, `main`)

The `applicants` table is a list of rows with a serial `p_id`; the
unique index `applicants_sig_unique` over
`(COALESCE(url,''), COALESCE(program,''), COALESCE(comments,''))` is
modelled by the `indexed` flag together with the conflict test of
`insertVals`.  `ON CONFLICT DO NOTHING` skips an insert exactly when the
index exists and a row with the same key is present. -/

/-- A JSONL input record (`r.get(...)` fields read by `main`; absent
keys are `none`; values are modelled as strings). -/
structure RawRec where
  program : Option String
  comments : Option String
  url : Option String
  status : Option String
  date_added : Option String
  date_added_raw : Option String
  masters_or_phd : Option String
  degree : Option String
  llmDashProgram : Option String
  llmUnderscoreProgram : Option String
  llmDashUniversity : Option String
  llmUnderscoreUniversity : Option String
deriving DecidableEq

/-- The fourteen column values of one `applicants` row (all columns
except the serial `p_id`). -/
structure RowVals where
  program : Option String
  comments : Option String
  date_added : Option PyDate
  url : Option String
  status : Option String
  term : Option String
  us_or_international : Option String
  gpa : Option ℚ
  gre : Option ℚ
  gre_v : Option ℚ
  gre_aw : Option ℚ
  degree : Option String
  llm_generated_program : Option String
  llm_generated_university : Option String
deriving DecidableEq

/-- A stored row: serial primary key plus column values. -/
structure Row where
  p_id : Nat
  vals : RowVals
deriving DecidableEq

/-- The uniqueness key of the index `applicants_sig_unique`:
`(COALESCE(url,''), COALESCE(program,''), COALESCE(comments,''))`. -/
def valsKey (v : RowVals) : String × String × String :=
  (v.url.getD "", v.program.getD "", v.comments.getD "")

/-- Key of a stored row. -/
def sigKey (r : Row) : String × String × String := valsKey r.vals

/-- The storage state: rows in insertion order (ascending `p_id`), the
next serial id, and whether `applicants_sig_unique` exists. -/
structure DB where
  rows : List Row
  nextId : Nat
  indexed : Bool
deriving DecidableEq

/-- A row has the minimal `p_id` within its key group. -/
def MinIn (l : List Row) (r : Row) : Prop :=
  ∀ r2 ∈ l, sigKey r2 = sigKey r → r.p_id ≤ r2.p_id

instance minInDecidable (l : List Row) (r : Row) : Decidable (MinIn l r) :=
  inferInstanceAs (Decidable (∀ r2 ∈ l, sigKey r2 = sigKey r → r.p_id ≤ r2.p_id))

/-- The deduplication of `ensure_index`: keep each row that has the
minimal `p_id` within its key group (the SQL deletes every row whose
`ROW_NUMBER() OVER (PARTITION BY key ORDER BY p_id)` exceeds 1). -/
def keepMinId (l : List Row) : List Row :=
  l.filter (fun r => decide (MinIn l r))

/-- The `ensure_index` from `load_data.py`: delete duplicate rows (keeping
the lowest `p_id` per key) and create the unique index if absent. -/
def ensure_index (db : DB) : DB :=
  { rows := keepMinId db.rows, nextId := db.nextId, indexed := true }

/-- One `INSERT ... ON CONFLICT DO NOTHING`: skip exactly when the
unique index exists and a row with the same key is already stored;
otherwise append a fresh row. -/
def insertVals (v : RowVals) (db : DB) : DB :=
  if db.indexed = true ∧ ∃ r ∈ db.rows, sigKey r = valsKey v then db
  else { rows := db.rows ++ [⟨db.nextId, v⟩], nextId := db.nextId + 1,
         indexed := db.indexed }

/-- Python `a or b` on optional strings (`None` and `""` are falsy). -/
def pyOr (a b : Option String) : Option String :=
  match a with
  | some s => if s = "" then b else some s
  | none => b

/-- The `" ".join(filter(None, parts))` (the parts are `clean_text` outputs,
so never empty strings). -/
def combinedText (parts : List (Option String)) : String :=
  String.intercalate " " (parts.filterMap id)

/-- The per-record body of the loop in `main` (lines 392–418 of
`load_data.py`): clean the raw fields, run every extractor on the
combined text, apply the Fall-2026 fallback and the status fallback. -/
def procRecord (r : RawRec) : RowVals :=
  let program := cleanTextO r.program
  let comments := cleanTextO r.comments
  let url := cleanTextO r.url
  let date_added := parse_date (pyOr r.date_added r.date_added_raw)
  let deg := normalize_degree (pyOr r.masters_or_phd r.degree)
  let llm_prog := cleanTextO (pyOr r.llmDashProgram r.llmUnderscoreProgram)
  let llm_uni := cleanTextO (pyOr r.llmDashUniversity r.llmUnderscoreUniversity)
  let status0 := cleanTextO r.status
  let combined := combinedText [program, comments, status0, llm_prog, llm_uni]
  let term0 := extract_term combined
  let term : Option String :=
    match term0, date_added with
    | none, some d => if d.year = 2026 then some "Fall 2026" else none
    | t, _ => t
  let status :=
    match status0 with
    | none => extract_status combined
    | some s => some s
  let g := extract_gpa_gre combined
  { program := program, comments := comments, date_added := date_added,
    url := url, status := status, term := term,
    us_or_international := extract_us_intl combined,
    gpa := g.1, gre := g.2.1, gre_v := g.2.2.1, gre_aw := g.2.2.2,
    degree := deg, llm_generated_program := llm_prog,
    llm_generated_university := llm_uni }

/-- The `load_jsonl`: one entry per line; a malformed line (`none`) is
skipped and processing continues. -/
def load_jsonl (lines : List (Option RawRec)) : List RawRec :=
  lines.filterMap id

/-- Fatal loader errors. -/
inductive LoadErr where
  | fileNotFound
deriving DecidableEq

/-- The outcome of one `main` invocation: the storage state it leaves
behind and the error it raised, if any. -/
structure LoadResult where
  db : DB
  error : Option LoadErr
deriving DecidableEq

/-- The insert loop of `main`. -/
def processAll (rs : List RawRec) (db : DB) : DB :=
  rs.foldl (fun d r => insertVals (procRecord r) d) db

/-- The `main` from `load_data.py`.  `fileExists` models
`os.path.exists(path)` for the resolved JSONL path; when it is false a
`FileNotFoundError` is raised before any database work, so the state is
returned untouched.  Otherwise `ensure_index` runs first and every
parsed line is inserted with conflict-skip semantics.  (The printed
summary counters are not modelled.) -/
def main (fileExists : Bool) (lines : List (Option RawRec)) (db : DB) : LoadResult :=
  if fileExists then
    { db := processAll (load_jsonl lines) (ensure_index db), error := none }
  else
    { db := db, error := some LoadErr.fileNotFound }

/-! ## Flask application state machine (`app.py`)

The shared module state (`_PULL_RUNNING`, `_PULL_MESSAGE`,
`_LAST_ANALYSIS`) plus the number of live worker threads.  Each handler
body and each worker termination (`finally` block) runs under `_LOCK`,
so they are modelled as atomic transitions of a step relation. -/

/-- The shared application state. -/
structure AppState where
  pullRunning : Bool
  pullMessage : String
  lastAnalysis : String
  pullWorkers : Nat
  analysisWorkers : Nat
deriving DecidableEq

/-- HTTP responses of the two POST handlers: `{"ok": true}, 200` or
`{"busy": true}, 409`. -/
inductive Resp where
  | ok
  | busy
deriving DecidableEq

/-- The `/pull-data` handler `pull_data`: reject with `busy` while a
pull is in flight, otherwise set the flag and start a worker thread. -/
def pull_data (s : AppState) : Resp × AppState :=
  if s.pullRunning then (Resp.busy, s)
  else (Resp.ok, { s with pullRunning := true,
                          pullMessage := "Pull Data started...",
                          pullWorkers := s.pullWorkers + 1 })

/-- The `/update-analysis` handler `update_analysis`: reject with `busy`
while a pull is in flight, otherwise start an analysis worker thread. -/
def update_analysis (s : AppState) : Resp × AppState :=
  if s.pullRunning then (Resp.busy, s)
  else (Resp.ok, { s with analysisWorkers := s.analysisWorkers + 1 })

/-- How a `_pull_worker` run terminated: the pipeline either succeeded
or raised some exception. -/
inductive PullOutcome where
  | success
  | failure (msg : String)

/-- The message recorded by `_pull_worker` (`"Pull Data complete."` or
`"Pull Data failed: {exc}"`). -/
def pullMsgOf (o : PullOutcome) : String :=
  match o with
  | PullOutcome.success => "Pull Data complete."
  | PullOutcome.failure m => "Pull Data failed: " ++ m

/-- The `finally` block of `_pull_worker`, which runs on every
terminating worker (success or exception): under the lock, clear
`_PULL_RUNNING` and record the message; the worker thread ends. -/
def pullWorkerFinish (o : PullOutcome) (s : AppState) : AppState :=
  { s with pullRunning := false, pullMessage := pullMsgOf o,
           pullWorkers := s.pullWorkers - 1 }

/-- Termination of `_analysis_worker`: record the metrics string. -/
def analysisWorkerFinish (result : String) (s : AppState) : AppState :=
  { s with lastAnalysis := result,
           analysisWorkers := s.analysisWorkers - 1 }

/-- The initial module state of `app.py`. -/
def initState : AppState :=
  { pullRunning := false, pullMessage := "No load has been run yet.",
    lastAnalysis := "", pullWorkers := 0, analysisWorkers := 0 }

/-- One atomic transition of the application: a request to either
handler, or the termination of a live worker thread. -/
inductive AppStep : AppState → AppState → Prop where
  | pullReq (s : AppState) : AppStep s (pull_data s).2
  | analysisReq (s : AppState) : AppStep s (update_analysis s).2
  | pullDone (o : PullOutcome) (s : AppState) (h : 0 < s.pullWorkers) :
      AppStep s (pullWorkerFinish o s)
  | analysisDone (m : String) (s : AppState) (h : 0 < s.analysisWorkers) :
      AppStep s (analysisWorkerFinish m s)

/-- States reachable from the initial state. -/
def Reachable (s : AppState) : Prop :=
  Relation.ReflTransGen AppStep initState s

/-! ## Character-level lemmas -/

/-- Characters with equal code points are equal. -/
theorem char_eq_of_toNat {a b : Char} (h : a.toNat = b.toNat) : a = b :=
  Char.ext (UInt32.toNat.inj h)

/-- The `Char.ofNat` round-trips on the code points used by the ASCII case
maps. -/
theorem toNat_charOfNat_small : ∀ n < 123, 65 ≤ n → (Char.ofNat n).toNat = n := by decide

/-- Inversion for `lowerChar`: the source character is the target itself
or its uppercase partner. -/
theorem lowerChar_inv {c l : Char} (h : lowerChar c = l) :
    c = l ∨ (c.toNat + 32 = l.toNat ∧ 65 ≤ c.toNat ∧ c.toNat ≤ 90) := by
  unfold lowerChar at h
  split_ifs at h with hr
  · right
    have hn := toNat_charOfNat_small (c.toNat + 32) (by omega) (by omega)
    exact ⟨by rw [← h, hn], hr.1, hr.2⟩
  · left; exact h

/-- A character whose lower-casing is a lowercase letter is a letter. -/
theorem isAlpha_of_lowerChar {c l : Char} (hl1 : 97 ≤ l.toNat) (hl2 : l.toNat ≤ 122)
    (h : lowerChar c = l) : isAlphaChar c = true := by
  rcases lowerChar_inv h with rfl | ⟨h1, h2, h3⟩ <;>
    simp only [isAlphaChar, decide_eq_true_eq] <;> omega

/-- Upper-casing a character whose lower-casing is the lowercase letter
`l` yields the uppercase partner of `l`. -/
theorem upperChar_of_lowerChar {c l : Char} (hl1 : 97 ≤ l.toNat) (hl2 : l.toNat ≤ 122)
    (h : lowerChar c = l) : upperChar c = Char.ofNat (l.toNat - 32) := by
  have hn := toNat_charOfNat_small (l.toNat - 32) (by omega) (by omega)
  rcases lowerChar_inv h with rfl | ⟨h1, h2, h3⟩
  · unfold upperChar
    rw [if_pos ⟨hl1, hl2⟩]
  · unfold upperChar
    rw [if_neg (by omega)]
    exact char_eq_of_toNat (by omega)

/-- The `pyTitleGo` in the in-word state lower-cases the rest of an
all-letter word. -/
theorem pyTitleGo_true_of_lower {m ls : List Char} (h : m.map lowerChar = ls)
    (hls : ∀ l ∈ ls, 97 ≤ l.toNat ∧ l.toNat ≤ 122) :
    pyTitleGo true m = ls := by
  induction m generalizing ls with
  | nil => simp only [List.map_nil] at h; rw [← h]; rfl
  | cons c cs ih =>
    cases ls with
    | nil => simp at h
    | cons l ls2 =>
      simp only [List.map_cons, List.cons.injEq] at h
      obtain ⟨h1, h2⟩ := h
      have hb := hls l (by simp)
      simp only [pyTitleGo, if_true]
      rw [h1, isAlpha_of_lowerChar hb.1 hb.2 h1]
      exact congrArg (l :: ·) (ih h2 (fun x hx => hls x (by simp [hx])))

/-- The `pyTitle` of a word whose lower-casing is the all-letter word
`l :: ls` capitalises the first letter and lower-cases the rest. -/
theorem pyTitle_of_lower {m : List Char} {l : Char} {ls : List Char}
    (h : m.map lowerChar = l :: ls)
    (hl : 97 ≤ l.toNat ∧ l.toNat ≤ 122)
    (hls : ∀ x ∈ ls, 97 ≤ x.toNat ∧ x.toNat ≤ 122) :
    pyTitle m = Char.ofNat (l.toNat - 32) :: ls := by
  cases m with
  | nil => simp at h
  | cons c cs =>
    simp only [List.map_cons, List.cons.injEq] at h
    obtain ⟨h1, h2⟩ := h
    simp only [pyTitle, pyTitleGo, if_false]
    rw [upperChar_of_lowerChar hl.1 hl.2 h1, isAlpha_of_lowerChar hl.1 hl.2 h1]
    exact congrArg (Char.ofNat (l.toNat - 32) :: ·) (pyTitleGo_true_of_lower h2 hls)

/-! ## Generic matcher lemmas -/

/-- Characters matched by `litCI` lower-case to the pattern literal, and
the input splits into the match and the rest. -/
theorem litCI_eq : ∀ {lit s m r : List Char}, litCI lit s = some (m, r) →
    m.map lowerChar = lit.map lowerChar ∧ s = m ++ r := by
  intro lit
  induction lit with
  | nil =>
    intro s m r h
    simp only [litCI, Option.some.injEq, Prod.mk.injEq] at h
    obtain ⟨h1, h2⟩ := h
    subst h1; subst h2
    exact ⟨rfl, rfl⟩
  | cons l ls ih =>
    intro s m r h
    cases s with
    | nil => simp [litCI] at h
    | cons c cs =>
      simp only [litCI] at h
      split_ifs at h with hc
      · cases hcc : litCI ls cs with
        | none => rw [hcc] at h; simp at h
        | some p =>
          obtain ⟨m2, r2⟩ := p
          rw [hcc] at h
          simp only [Option.some.injEq, Prod.mk.injEq] at h
          obtain ⟨h1, h2⟩ := h
          obtain ⟨ihm, ihs⟩ := ih hcc
          subst h2
          constructor
          · rw [← h1]; simp only [List.map_cons]; rw [hc, ihm]
          · rw [← h1]; simp only [List.cons_append]; rw [ihs]

/-- Inversion for `firstSome` over a mapped alternative list. -/
theorem firstSome_eq {α β : Type} {f : β → Option α} {l : List β} {a : α}
    (h : firstSome (l.map f) = some a) : ∃ x ∈ l, f x = some a := by
  induction l with
  | nil => simp [firstSome] at h
  | cons b bs ih =>
    simp only [List.map_cons] at h
    cases hb : f b with
    | some v =>
      rw [hb] at h
      simp only [firstSome, Option.some.injEq] at h
      exact ⟨b, by simp, by rw [hb, h]⟩
    | none =>
      rw [hb] at h
      simp only [firstSome] at h
      obtain ⟨x, hx, hfx⟩ := ih h
      exact ⟨x, by simp [hx], hfx⟩

/-- Property transfer from a position matcher to its `searchO` scan. -/
theorem searchO_prop {α : Type} {P : α → Prop} {f : Option Char → List Char → Option α}
    (hf : ∀ prev s a, f prev s = some a → P a) :
    ∀ prev s a, searchO f prev s = some a → P a := by
  intro prev s
  induction s generalizing prev with
  | nil =>
    intro a h
    simp only [searchO] at h
    exact hf _ _ _ h
  | cons c cs ih =>
    intro a h
    simp only [searchO] at h
    cases hx : f prev (c :: cs) with
    | some v => rw [hx] at h; simp only [Option.some.injEq] at h; exact h ▸ hf _ _ _ hx
    | none => rw [hx] at h; exact ih _ _ h

/-! ## Application state-machine lemmas -/

/-- The concurrency invariant of the application: never more than one
pull worker, and no pull worker while the flag is clear. -/
def AppInv (s : AppState) : Prop :=
  s.pullWorkers ≤ 1 ∧ (s.pullRunning = false → s.pullWorkers = 0)

/-- Every application transition preserves the concurrency invariant. -/
theorem appStep_inv {s t : AppState} (h : AppStep s t) (hs : AppInv s) : AppInv t := by
  obtain ⟨h1, h2⟩ := hs
  cases h with
  | pullReq s =>
    by_cases hr : s.pullRunning = true
    · simp only [pull_data, hr, if_true]
      exact ⟨h1, h2⟩
    · have hr2 : s.pullRunning = false := by simpa using hr
      have h0 : s.pullWorkers = 0 := h2 hr2
      simp only [pull_data, hr2, Bool.false_eq_true, if_false]
      exact ⟨by simp [h0], fun hcon => by simp at hcon⟩
  | analysisReq s =>
    by_cases hr : s.pullRunning = true
    · simp only [update_analysis, hr, if_true]
      exact ⟨h1, h2⟩
    · have hr2 : s.pullRunning = false := by simpa using hr
      simp only [update_analysis, hr2, Bool.false_eq_true, if_false]
      exact ⟨h1, fun _ => h2 hr2⟩
  | pullDone o s hw =>
    exact ⟨by simp only [pullWorkerFinish]; omega,
      fun _ => by simp only [pullWorkerFinish]; omega⟩
  | analysisDone m s hw =>
    exact ⟨h1, h2⟩

/-- The concurrency invariant holds in every reachable state. -/
theorem reachable_inv {s : AppState} (h : Reachable s) : AppInv s := by
  induction h with
  | refl => exact ⟨by simp [initState], fun _ => by simp [initState]⟩
  | tail _ hstep ih => exact appStep_inv hstep ih

/-! ## Claim theorems -/

/-- C8: when the secondary-source input file does not exist at the
resolved path, `main` raises `FileNotFoundError` to its caller and the
storage state is completely untouched (no row inserted or deleted, no
index created) — the load aborts before any database work. -/
theorem c8_missing_file_aborts_without_mutation
    (lines : List (Option RawRec)) (db : DB) :
    (GradCafe.main false lines db).error = some LoadErr.fileNotFound ∧
    (GradCafe.main false lines db).db = db :=
  ⟨rfl, rfl⟩

/-- C9: in every reachable application state, while the pull-running
flag is set both a further pull request and an analysis-refresh request
are rejected with the busy response and leave the state unchanged
(starting no worker thread and performing no pipeline work), and at most
one pull worker is live. -/
theorem c9_busy_reject_and_at_most_one_pull (s : AppState) (hs : Reachable s) :
    (s.pullRunning = true →
      pull_data s = (Resp.busy, s) ∧ update_analysis s = (Resp.busy, s)) ∧
    s.pullWorkers ≤ 1 := by
  refine ⟨fun hr => ⟨by simp [pull_data, hr], by simp [update_analysis, hr]⟩,
    (reachable_inv hs).1⟩

/-- The state after one accepted pull request, used to witness C9. -/
def busyState : AppState := (pull_data initState).2

/-- C9 witness: the state after one accepted pull request is reachable,
has the flag set, and there a second pull request is rejected as busy
with at most one pull worker live. -/
theorem c9_witness :
    Reachable busyState ∧ busyState.pullRunning = true ∧
    pull_data busyState = (Resp.busy, busyState) ∧ busyState.pullWorkers ≤ 1 := by
  have hreach : Reachable busyState :=
    Relation.ReflTransGen.single (AppStep.pullReq initState)
  have h := c9_busy_reject_and_at_most_one_pull busyState hreach
  exact ⟨hreach, by decide, (h.1 (by decide)).1, h.2⟩

/-- C10: every terminating pull-worker run — the pipeline succeeding or
raising — clears the pull-running flag and records the completion or
failure message, and a subsequent pull request on the resulting state is
accepted (the system is never left permanently busy). -/
theorem c10_pull_worker_always_resets (o : PullOutcome) (s : AppState) :
    (pullWorkerFinish o s).pullRunning = false ∧
    (pullWorkerFinish o s).pullMessage = pullMsgOf o ∧
    (pull_data (pullWorkerFinish o s)).1 = Resp.ok := by
  refine ⟨rfl, rfl, ?_⟩
  simp [pull_data, pullWorkerFinish]

/-! ## Loader lemmas and claims C1 / C2 -/

/-- Rows surviving `keepMinId` were present and minimal. -/
theorem mem_keepMinId {l : List Row} {r : Row} (h : r ∈ keepMinId l) :
    r ∈ l ∧ MinIn l r := by
  have h2 := List.mem_filter.mp h
  exact ⟨h2.1, of_decide_eq_true h2.2⟩

/-- When every row is already minimal in its key group, deduplication
changes nothing. -/
theorem keepMinId_eq_self {l : List Row} (h : ∀ r ∈ l, MinIn l r) :
    keepMinId l = l :=
  List.filter_eq_self.mpr fun r hr => decide_eq_true (h r hr)

/-- After deduplication every surviving row is minimal among the
survivors. -/
theorem keepMinId_allMin (l : List Row) : ∀ r ∈ keepMinId l, MinIn (keepMinId l) r := by
  intro r hr r2 hr2 hk
  exact (mem_keepMinId hr).2 r2 (mem_keepMinId hr2).1 hk

/-- A key is present in the storage state. -/
def keyPresent (k : String × String × String) (db : DB) : Prop :=
  ∃ r ∈ db.rows, sigKey r = k

/-- Inserts never remove a present key. -/
theorem keyPresent_insertVals {k : String × String × String} (v : RowVals) (db : DB)
    (h : keyPresent k db) : keyPresent k (insertVals v db) := by
  obtain ⟨r, hr, hk⟩ := h
  unfold insertVals
  split
  · exact ⟨r, hr, hk⟩
  · exact ⟨r, List.mem_append_left _ hr, hk⟩

/-- After inserting values their key is present (either it already was,
or the fresh row carries it). -/
theorem keyPresent_insertVals_self (v : RowVals) (db : DB) :
    keyPresent (valsKey v) (insertVals v db) := by
  unfold insertVals
  split
  · next hc => exact hc.2
  · exact ⟨⟨db.nextId, v⟩, List.mem_append_right _ (by simp), rfl⟩

/-- Inserting does not change whether the unique index exists. -/
theorem insertVals_indexed (v : RowVals) (db : DB) :
    (insertVals v db).indexed = db.indexed := by
  unfold insertVals; split <;> rfl

/-- The conflict-skip: with the index present and the key already
stored, an insert leaves the state unchanged. -/
theorem insertVals_skip (v : RowVals) (db : DB) (hidx : db.indexed = true)
    (hk : keyPresent (valsKey v) db) : insertVals v db = db := by
  unfold insertVals
  exact if_pos ⟨hidx, hk⟩

/-- Unfolding of the insert loop. -/
theorem processAll_cons (r : RawRec) (rs : List RawRec) (db : DB) :
    processAll (r :: rs) db = processAll rs (insertVals (procRecord r) db) := rfl

/-- The insert loop does not change whether the index exists. -/
theorem processAll_indexed (rs : List RawRec) (db : DB) :
    (processAll rs db).indexed = db.indexed := by
  induction rs generalizing db with
  | nil => rfl
  | cons r rs ih => rw [processAll_cons, ih, insertVals_indexed]

/-- The insert loop never removes a present key. -/
theorem processAll_keyPresent {k : String × String × String} (rs : List RawRec) (db : DB)
    (h : keyPresent k db) : keyPresent k (processAll rs db) := by
  induction rs generalizing db with
  | nil => exact h
  | cons r rs ih => exact ih _ (keyPresent_insertVals _ _ h)

/-- After the insert loop, the key of every processed record is
present. -/
theorem processAll_keys_present (rs : List RawRec) (db : DB) :
    ∀ r ∈ rs, keyPresent (valsKey (procRecord r)) (processAll rs db) := by
  induction rs generalizing db with
  | nil => intro r hr; cases hr
  | cons a rs ih =>
    intro r hr
    rw [processAll_cons]
    rcases List.mem_cons.mp hr with rfl | h
    · exact processAll_keyPresent _ _ (keyPresent_insertVals_self _ _)
    · exact ih _ r h

/-- When every record key is already present (and the index exists), the
whole insert loop is a no-op. -/
theorem processAll_noop (rs : List RawRec) (db : DB) (hidx : db.indexed = true)
    (h : ∀ r ∈ rs, keyPresent (valsKey (procRecord r)) db) :
    processAll rs db = db := by
  induction rs with
  | nil => rfl
  | cons a rs ih =>
    rw [processAll_cons, insertVals_skip _ _ hidx (h a (by simp))]
    exact ih fun r hr => h r (by simp [hr])

/-- With the index present, inserting preserves per-group minimality:
skipped inserts change nothing, and an appended row has a fresh key. -/
theorem insertVals_allMin (v : RowVals) (db : DB) (hidx : db.indexed = true)
    (h : ∀ r ∈ db.rows, MinIn db.rows r) :
    ∀ r ∈ (insertVals v db).rows, MinIn (insertVals v db).rows r := by
  unfold insertVals
  split
  · exact h
  · next hc =>
    have hfresh : ∀ r ∈ db.rows, sigKey r ≠ valsKey v := by
      intro r hr hk
      exact hc ⟨hidx, r, hr, hk⟩
    intro r hr r2 hr2 hk
    rcases List.mem_append.mp hr with h1 | h1
    · rcases List.mem_append.mp hr2 with h2 | h2
      · exact h r h1 r2 h2 hk
      · have he : r2 = ⟨db.nextId, v⟩ := by simpa using h2
        subst he
        exact absurd hk.symm (hfresh r h1)
    · have he : r = ⟨db.nextId, v⟩ := by simpa using h1
      subst he
      rcases List.mem_append.mp hr2 with h2 | h2
      · exact absurd hk (hfresh r2 h2)
      · have he2 : r2 = ⟨db.nextId, v⟩ := by simpa using h2
        subst he2
        exact le_refl _

/-- The insert loop preserves per-group minimality. -/
theorem processAll_allMin (rs : List RawRec) (db : DB) (hidx : db.indexed = true)
    (h : ∀ r ∈ db.rows, MinIn db.rows r) :
    ∀ r ∈ (processAll rs db).rows, MinIn (processAll rs db).rows r := by
  induction rs generalizing db with
  | nil => exact h
  | cons a rs ih =>
    rw [processAll_cons]
    exact ih _ (by rw [insertVals_indexed]; exact hidx) (insertVals_allMin _ _ hidx h)

/-- The storage state a successful `main` run leaves behind. -/
theorem main_true_db (lines : List (Option RawRec)) (db : DB) :
    (GradCafe.main true lines db).db = processAll (load_jsonl lines) (ensure_index db) := rfl

/-- The `ensure_index` is a no-op on a state that is already indexed and
deduplicated. -/
theorem ensure_index_stable (db : DB) (hidx : db.indexed = true)
    (h : ∀ r ∈ db.rows, MinIn db.rows r) : ensure_index db = db := by
  cases db with
  | mk rows nid idx =>
    simp only [ensure_index, DB.mk.injEq]
    exact ⟨keepMinId_eq_self h, trivial, hidx.symm⟩

/-- A `main` run on a state that is indexed, deduplicated, and already
contains every record key leaves the state unchanged. -/
theorem main_true_second_run (lines : List (Option RawRec)) (db1 : DB)
    (hidx : db1.indexed = true)
    (hmin : ∀ r ∈ db1.rows, MinIn db1.rows r)
    (hkeys : ∀ r ∈ load_jsonl lines, keyPresent (valsKey (procRecord r)) db1) :
    (GradCafe.main true lines db1).db = db1 := by
  rw [main_true_db, ensure_index_stable db1 hidx hmin]
  exact processAll_noop _ _ hidx hkeys

/-- C1: loading the same input record set twice is idempotent — for
every sequence of input lines and every starting state, running `main`
a second time on the identical input leaves the stored rows exactly as
after the first run; no additional row is created for any
`(url, program, comments)` key already present. -/
theorem c1_second_load_is_noop (lines : List (Option RawRec)) (db : DB) :
    (GradCafe.main true lines ((GradCafe.main true lines db).db)).db =
      (GradCafe.main true lines db).db := by
  have hidx : ((GradCafe.main true lines db).db).indexed = true := by
    rw [main_true_db, processAll_indexed]; rfl
  have hmin : ∀ r ∈ ((GradCafe.main true lines db).db).rows,
      MinIn ((GradCafe.main true lines db).db).rows r := by
    rw [main_true_db]
    exact processAll_allMin _ _ rfl (keepMinId_allMin _)
  have hkeys : ∀ r ∈ load_jsonl lines,
      keyPresent (valsKey (procRecord r)) ((GradCafe.main true lines db).db) := by
    rw [main_true_db]
    exact processAll_keys_present _ _
  exact main_true_second_run lines _ hidx hmin hkeys

/-- A stored row with key `("u1","p1","c1")` and non-empty LLM fields
`"A"` / `"B"`, used for the C2 counterexample. -/
def c2row : Row :=
  ⟨1, { program := some "p1", comments := some "c1", date_added := none,
        url := some "u1", status := none, term := none,
        us_or_international := none, gpa := none, gre := none, gre_v := none,
        gre_aw := none, degree := none,
        llm_generated_program := some "A", llm_generated_university := some "B" }⟩

/-- A one-row indexed storage state holding `c2row`. -/
def c2db : DB := { rows := [c2row], nextId := 2, indexed := true }

/-- A later secondary record with the same `(url, program, comments)`
key and different, non-empty LLM values `"X"` / `"Y"`. -/
def c2rec : RawRec :=
  { program := some "p1", comments := some "c1", url := some "u1",
    status := none, date_added := none, date_added_raw := none,
    masters_or_phd := none, degree := none,
    llmDashProgram := some "X", llmUnderscoreProgram := none,
    llmDashUniversity := some "Y", llmUnderscoreUniversity := none }

/-- C2 counterexample: processing a secondary record whose key matches a
stored row and that carries non-empty LLM values does NOT update the
stored row's LLM fields — the insert is skipped by
`ON CONFLICT DO NOTHING` and the stored LLM university stays `"B"`,
never becoming the incoming `"Y"`. -/
theorem c2_counterexample_no_llm_update :
    c2rec.llmDashUniversity = some "Y" ∧
    (GradCafe.main true [some c2rec] c2db).db = c2db ∧
    ((GradCafe.main true [some c2rec] c2db).db.rows.map
      (fun r => r.vals.llm_generated_university)) = [some "B"] := by
  refine ⟨rfl, by decide, by decide⟩

/-- C2 amended: processing a secondary record whose
`(url, program, comments)` key matches a stored row leaves the storage
state entirely unchanged — every field of every row, the LLM fields
included, is untouched; in particular a previously-stored non-empty LLM
value is never replaced (the LLM fields are only ever set when the row
is first inserted). -/
theorem c2_amended_conflict_leaves_rows_unchanged (db : DB) (v : RowVals)
    (hidx : db.indexed = true) (hk : ∃ r ∈ db.rows, sigKey r = valsKey v) :
    insertVals v db = db := by
  unfold insertVals
  exact if_pos ⟨hidx, hk⟩

/-- C2 amended witness: the concrete conflicting record of the
counterexample indeed leaves the concrete state unchanged. -/
theorem c2_amended_witness :
    c2db.indexed = true ∧
    (∃ r ∈ c2db.rows, sigKey r = valsKey (procRecord c2rec)) ∧
    insertVals (procRecord c2rec) c2db = c2db := by
  refine ⟨rfl, by decide, ?_⟩
  exact c2_amended_conflict_leaves_rows_unchanged _ _ rfl (by decide)

/-! ## Claims C4, C5, C7 -/

/-- The input text `Fall '26`, built from its characters (the sixth is
the ASCII apostrophe). -/
def fallAposInput : String := ⟨['F', 'a', 'l', 'l', ' ', aposChar, '2', '6']⟩

/-- C4: term normalization — `Fall '26` and `F26` give `Fall 2026`
(two-digit year expanded to `20YY`), `Autumn 2026` gives `Fall 2026`
(Autumn mapped to Fall), `no term here` gives none; and the shorthand
pass is consulted exactly when the full-form pattern finds no match. -/
theorem c4_extract_term_normalization :
    extract_term fallAposInput = some "Fall 2026" ∧
    extract_term "Autumn 2026" = some "Fall 2026" ∧
    extract_term "F26" = some "Fall 2026" ∧
    extract_term "no term here" = none ∧
    (∀ t : String, termFullSearch t.data = none →
      extract_term t = termShortResult t.data) ∧
    (∀ t : String, ∀ m, termFullSearch t.data = some m →
      extract_term t = some (termFullResult m)) := by
  refine ⟨by decide, by decide, by decide, by decide, ?_, ?_⟩
  · intro t h
    unfold extract_term
    rw [h]
  · intro t m h
    unfold extract_term
    rw [h]

/-- C4 witness: on `F26` the full-form pattern finds no match, and the
result is indeed the shorthand pass result. -/
theorem c4_witness :
    termFullSearch "F26".data = none ∧
    extract_term "F26" = termShortResult "F26".data :=
  ⟨by decide, c4_extract_term_normalization.2.2.2.2.1 "F26" (by decide)⟩

/-- C5 counterexample: the nationality extractor of
`module_5/src/load_data.py` (cited by the claim) has no `Other` branch:
on the text `Other` — which contains the word `Other` and neither other
label — it returns none, not `Other` as the claim states. -/
theorem c5_counterexample_other_not_recognised :
    hasOther "Other".data = true ∧ hasIntl "Other".data = false ∧
    hasAmerican "Other".data = false ∧ extract_us_intl "Other" = none :=
  ⟨by decide, by decide, by decide, by decide⟩

/-- C5 amended: both extractors check in the priority order
International > American (> Other), returning the first matched label;
module_2's `_extract_us_intl` recognises `Other` as the final fallback,
while module_5's `extract_us_intl` does not, so a text containing only
`Other` yields absent there; both are absent when no label word occurs. -/
theorem c5_amended_priority_order (t : String) :
    (hasIntl t.data = true →
      extract_us_intl t = some "International" ∧
      extract_us_intl_m2 t = some "International") ∧
    (hasIntl t.data = false → hasAmerican t.data = true →
      extract_us_intl t = some "American" ∧
      extract_us_intl_m2 t = some "American") ∧
    (hasIntl t.data = false → hasAmerican t.data = false → hasOther t.data = true →
      extract_us_intl t = none ∧ extract_us_intl_m2 t = some "Other") ∧
    (hasIntl t.data = false → hasAmerican t.data = false → hasOther t.data = false →
      extract_us_intl t = none ∧ extract_us_intl_m2 t = none) := by
  refine ⟨?_, ?_, ?_, ?_⟩
  · intro h1
    have ht : t ≠ "" := by
      intro he; subst he; exact absurd h1 (by decide)
    exact ⟨by simp [extract_us_intl, h1], by simp [extract_us_intl_m2, ht, h1]⟩
  · intro h1 h2
    have ht : t ≠ "" := by
      intro he; subst he; exact absurd h2 (by decide)
    exact ⟨by simp [extract_us_intl, h1, h2],
      by simp [extract_us_intl_m2, ht, h1, h2]⟩
  · intro h1 h2 h3
    have ht : t ≠ "" := by
      intro he; subst he; exact absurd h3 (by decide)
    exact ⟨by simp [extract_us_intl, h1, h2],
      by simp [extract_us_intl_m2, ht, h1, h2, h3]⟩
  · intro h1 h2 h3
    by_cases ht : t = ""
    · subst ht; exact ⟨rfl, rfl⟩
    · exact ⟨by simp [extract_us_intl, h1, h2],
        by simp [extract_us_intl_m2, ht, h1, h2, h3]⟩

/-- C5 witness: on the text `Other` the amended claim gives none for
module_5's extractor and `Other` for module_2's. -/
theorem c5_witness :
    hasOther "Other".data = true ∧
    (extract_us_intl "Other" = none ∧ extract_us_intl_m2 "Other" = some "Other") :=
  ⟨by decide,
    (c5_amended_priority_order "Other").2.2.1 (by decide) (by decide) (by decide)⟩

/-- C7: on the spec's example the extractor returns exactly
`(3.80, 165.0, 158.0, 4.5)`; and on every text the four components are
computed by four independent regex searches over the same text, each
passed through the fail-soft numeric conversion — so the absence of one
field cannot block the extraction of the others and no conversion ever
raises. -/
theorem c7_gpa_gre_example :
    extract_gpa_gre "GPA 3.80 GRE Quant 165 Verbal 158 AWA 4.5" =
      (some (mkRat 19 5), some (mkRat 165 1), some (mkRat 158 1), some (mkRat 9 2)) ∧
    ∀ t : String, extract_gpa_gre t =
      ((gpaSearch t.data).bind toFloatChars,
       (searchO greQAt none t.data).bind toFloatChars,
       (searchO greVAt none t.data).bind toFloatChars,
       (searchO awAt none t.data).bind toFloatChars) :=
  ⟨by decide, fun _ => rfl⟩

/-! ## Claim C6 -/

/-- The matched group of `DECISION_RE` lower-cases to one of the five
alternatives. -/
theorem decisionAt_lower {prev : Option Char} {s m : List Char}
    (h : decisionAt prev s = some m) : m.map lowerChar ∈ decisionAlts := by
  unfold decisionAt at h
  by_cases hb : atBoundary prev s = true
  · rw [if_pos hb] at h
    obtain ⟨alt, halt, hf⟩ := firstSome_eq h
    cases hl : litCI alt s with
    | none => rw [hl] at hf; exact absurd hf (by simp)
    | some p =>
      obtain ⟨m2, r⟩ := p
      rw [hl] at hf
      dsimp only at hf
      by_cases hb2 : atBoundary (newPrev prev m2) r = true
      · rw [if_pos hb2] at hf
        obtain rfl := Option.some.inj hf
        have hlow := (litCI_eq hl).1
        have hfix : alt.map lowerChar = alt := by
          fin_cases halt <;> decide
        rw [hlow, hfix]
        exact halt
      · rw [if_neg hb2] at hf
        exact absurd hf (by simp)
  · rw [if_neg hb] at h
    exact absurd h (by simp)

/-- The first match found by `DECISION_RE.search` lower-cases to one of
the five alternatives. -/
theorem decisionSearch_lower {t m : List Char} (h : decisionSearch t = some m) :
    m.map lowerChar ∈ decisionAlts :=
  searchO_prop (fun _ _ _ hh => decisionAt_lower hh) none t m h

/-- The post-processing of `extract_status` maps every possible matched
group to one of the four canonical labels. -/
theorem statusFrom_codomain {m : List Char} (h : m.map lowerChar ∈ decisionAlts) :
    statusFrom m ∈ ["Accepted".data, "Rejected".data, "Waitlisted".data,
      "Interview".data] := by
  simp only [decisionAlts, List.mem_cons, List.not_mem_nil, or_false] at h
  unfold statusFrom
  rcases h with h | h | h | h | h
  · have h1 : m.map lowerChar = 'a' :: "ccepted".data := by rw [h]
    have hp : pyTitle m = "Accepted".data := by
      rw [pyTitle_of_lower h1 (by decide) (by decide)]; decide
    rw [h, if_neg (by decide), hp]
    simp
  · have h1 : m.map lowerChar = 'r' :: "ejected".data := by rw [h]
    have hp : pyTitle m = "Rejected".data := by
      rw [pyTitle_of_lower h1 (by decide) (by decide)]; decide
    rw [h, if_neg (by decide), hp]
    simp
  · rw [h, if_pos (by decide)]
    simp
  · rw [h, if_pos (by decide)]
    simp
  · have h1 : m.map lowerChar = 'i' :: "nterview".data := by rw [h]
    have hp : pyTitle m = "Interview".data := by
      rw [pyTitle_of_lower h1 (by decide) (by decide)]; decide
    rw [h, if_neg (by decide), hp]
    simp

/-- C6: status extraction — `Wait listed` normalizes to `Waitlisted`,
`ACCEPTED on 3 Jan` to `Accepted` (title-cased first occurrence),
`no decision` to absent; and on every input a returned status is one of
the four canonical labels. -/
theorem c6_extract_status :
    extract_status "Wait listed" = some "Waitlisted" ∧
    extract_status "ACCEPTED on 3 Jan" = some "Accepted" ∧
    extract_status "no decision" = none ∧
    ∀ (t r : String), extract_status t = some r →
      r ∈ (["Accepted", "Rejected", "Waitlisted", "Interview"] : List String) := by
  refine ⟨by decide, by decide, by decide, ?_⟩
  intro t r h
  unfold extract_status at h
  cases hd : decisionSearch t.data with
  | none => rw [hd] at h; exact absurd h (by simp)
  | some m =>
    rw [hd] at h
    dsimp only at h
    obtain rfl := Option.some.inj h
    have hc := statusFrom_codomain (decisionSearch_lower hd)
    simp only [List.mem_cons, List.not_mem_nil, or_false] at hc ⊢
    rcases hc with h1 | h1 | h1 | h1 <;> rw [h1] <;> decide

/-- C6 witness: the codomain property applied at a concrete input. -/
theorem c6_witness :
    extract_status "ACCEPTED on 3 Jan" = some "Accepted" ∧
    "Accepted" ∈ (["Accepted", "Rejected", "Waitlisted", "Interview"] : List String) :=
  ⟨by decide, c6_extract_status.2.2.2 "ACCEPTED on 3 Jan" "Accepted" (by decide)⟩

/-! ## Claim C3 -/

/-- The possible captures of the GPA group `([0-4]\.\d{1,2})`: an
integer digit 0–4, a dot, then one or two decimal digits. -/
def GpaCapShape (cap : List Char) : Prop :=
  ∃ c d, (48 ≤ c.toNat ∧ c.toNat ≤ 52) ∧ (48 ≤ d.toNat ∧ d.toNat ≤ 57) ∧
    (cap = [c, '.', d] ∨
     ∃ e, (48 ≤ e.toNat ∧ e.toNat ≤ 57) ∧ cap = [c, '.', d, e])

/-- Every successful `gpaCore` capture has the shape of the group. -/
theorem gpaCore_shape : ∀ {s cap : List Char}, gpaCore s = some cap → GpaCapShape cap := by
  intro s cap h
  rcases s with _ | ⟨c, _ | ⟨dot, _ | ⟨d, _ | ⟨e, rest3⟩⟩⟩⟩
  · exact absurd h (by simp [gpaCore])
  · simp [gpaCore] at h
  · simp [gpaCore] at h
  · simp only [gpaCore] at h
    split_ifs at h with h1 h2 h3 h4 <;>
      first
        | exact Option.noConfusion h
        | (subst h2
           exact ⟨c, d, h1, by simpa [isDigitChar] using h3,
             Or.inl (Option.some.inj h).symm⟩)
  · simp only [gpaCore] at h
    split_ifs at h with h1 h2 h3 h4 h5 h6 <;>
      first
        | exact Option.noConfusion h
        | (subst h2
           refine ⟨c, d, h1, by simpa [isDigitChar] using h3,
             Or.inr ⟨e, by simpa [isDigitChar] using h4,
               (Option.some.inj h).symm⟩⟩)
        | (subst h2
           exact ⟨c, d, h1, by simpa [isDigitChar] using h3,
             Or.inl (Option.some.inj h).symm⟩)

/-- Every capture produced by `GPA_RE` at one position has the group
shape, whether the label prefix matched or not. -/
theorem gpaAt_shape {prev : Option Char} {s cap : List Char}
    (h : gpaAt prev s = some cap) : GpaCapShape cap := by
  unfold gpaAt at h
  by_cases hb : atBoundary prev s = true
  · rw [if_pos hb] at h
    cases hg : gpaLabelled prev s with
    | some c2 =>
      rw [hg] at h
      dsimp only at h
      unfold gpaLabelled at hg
      cases hlit : litCI "gpa".data s with
      | none => rw [hlit] at hg; exact absurd hg (by simp)
      | some p =>
        obtain ⟨m, r⟩ := p
        rw [hlit] at hg
        dsimp only at hg
        exact (Option.some.inj h) ▸ gpaCore_shape hg
    | none =>
      rw [hg] at h
      dsimp only at h
      exact gpaCore_shape h
  · rw [if_neg hb] at h
    exact absurd h (by simp)

/-- Every capture found by `GPA_RE.search` has the group shape. -/
theorem gpaSearch_shape {t cap : List Char} (h : gpaSearch t = some cap) :
    GpaCapShape cap :=
  searchO_prop (fun _ _ _ hh => gpaAt_shape hh) none t cap h

/-- A digit character differs from any character with a code point
outside the digit range. -/
theorem digit_ne {x : Char} (hx : 48 ≤ x.toNat ∧ x.toNat ≤ 57) {y : Char}
    (hy : y.toNat < 48 ∨ 57 < y.toNat) : x ≠ y := by
  intro he; subst he; omega

/-- Characters at or above the digit range are not whitespace. -/
theorem isSpaceChar_of_ge {x : Char} (hx : 46 ≤ x.toNat) : isSpaceChar x = false := by
  simp only [isSpaceChar, decide_eq_false_iff_not]
  omega

/-- The `dropWhile` is the identity when no element satisfies the
predicate. -/
theorem dropWhile_all_false {p : Char → Bool} :
    ∀ {l : List Char}, (∀ x ∈ l, p x = false) → l.dropWhile p = l := by
  intro l h
  cases l with
  | nil => rfl
  | cons a l2 => rw [List.dropWhile_cons, h a (by simp)]; simp

/-- The `pyStrip` is the identity on whitespace-free strings. -/
theorem pyStrip_no_space {l : List Char} (h : ∀ x ∈ l, isSpaceChar x = false) :
    pyStrip l = l := by
  unfold pyStrip
  rw [dropWhile_all_false h,
    dropWhile_all_false (fun x hx => h x (List.mem_reverse.mp hx)),
    List.reverse_reverse]

/-- The `cleanChars` is the identity on nonempty strings of characters in
the dot/digit range. -/
theorem cleanChars_of_digits {l : List Char}
    (h : ∀ x ∈ l, 46 ≤ x.toNat ∧ x.toNat ≤ 57) (hne : l ≠ []) :
    cleanChars l = some l := by
  unfold cleanChars
  have h1 : l.filter (fun c => decide (c ≠ Char.ofNat 0)) = l :=
    List.filter_eq_self.mpr fun x hx =>
      decide_eq_true (by
        intro he
        have := (h x hx).1
        rw [he] at this
        exact absurd this (by decide))
  rw [h1, pyStrip_no_space (fun x hx => isSpaceChar_of_ge (h x hx).1), if_neg hne]

/-- Skipping the comma filter on comma-free strings. -/
theorem filter_comma_of_digits {l : List Char}
    (h : ∀ x ∈ l, 46 ≤ x.toNat ∧ x.toNat ≤ 57) :
    l.filter (fun c => decide (c ≠ ',')) = l :=
  List.filter_eq_self.mpr fun x hx =>
    decide_eq_true (by
      intro he
      have := (h x hx).1
      rw [he] at this
      exact absurd this (by decide))

/-- The `parseFloatLit` on a capture `digit . digits`. -/
theorem parseFloatLit_digit_dot {c : Char} {bs : List Char}
    (hc : 48 ≤ c.toNat ∧ c.toNat ≤ 57)
    (hbs : ∀ x ∈ bs, 48 ≤ x.toNat ∧ x.toNat ≤ 57) (hne : bs ≠ []) :
    parseFloatLit (c :: '.' :: bs) =
      some (mkRat (natOfDigits [c] * 10 ^ bs.length + natOfDigits bs)
        (10 ^ bs.length)) := by
  have hcd : (decide (c ≠ '.')) = true :=
    decide_eq_true (digit_ne hc (by decide))
  have ht : (c :: '.' :: bs).takeWhile (fun x => decide (x ≠ '.')) = [c] := by
    rw [List.takeWhile_cons, hcd]
    simp
  have hdi : isDigitChar c = true := by simp [isDigitChar]; omega
  have hba : bs.all isDigitChar = true :=
    List.all_eq_true.mpr fun x hx => by
      have := hbs x hx
      simp [isDigitChar]; omega
  simp only [parseFloatLit]
  rw [ht]
  simp only [List.length_cons, List.length_nil, Nat.zero_add, List.drop_succ_cons,
    List.drop_zero]
  rw [if_pos ⟨by simp [hdi], hba, Or.inl (by simp)⟩]

/-- Evaluation of `to_float` on a shaped capture. -/
theorem toFloatChars_digit_dot {c : Char} {bs : List Char}
    (hc : 48 ≤ c.toNat ∧ c.toNat ≤ 57)
    (hbs : ∀ x ∈ bs, 48 ≤ x.toNat ∧ x.toNat ≤ 57) (hne : bs ≠ []) :
    toFloatChars (c :: '.' :: bs) =
      some (mkRat (natOfDigits [c] * 10 ^ bs.length + natOfDigits bs)
        (10 ^ bs.length)) := by
  have hall : ∀ x ∈ c :: '.' :: bs, 46 ≤ x.toNat ∧ x.toNat ≤ 57 := by
    intro x hx
    rcases List.mem_cons.mp hx with rfl | hx2
    · omega
    rcases List.mem_cons.mp hx2 with rfl | hx3
    · constructor <;> decide
    · have := hbs x hx3; omega
  unfold toFloatChars
  rw [cleanChars_of_digits hall (by simp)]
  dsimp only
  rw [filter_comma_of_digits hall]
  exact parseFloatLit_digit_dot hc hbs hne

/-- The accumulator bound for `natOfDigits`. -/
theorem natOfDigits_go_lt : ∀ (bs : List Char) (a : Nat),
    (∀ x ∈ bs, x.toNat ≤ 57) →
    bs.foldl (fun a c => a * 10 + digitVal c) a < (a + 1) * 10 ^ bs.length := by
  intro bs
  induction bs with
  | nil => intro a h; simpa using Nat.lt_succ_self a
  | cons b bs2 ih =>
    intro a h
    simp only [List.foldl_cons, List.length_cons]
    have hb : digitVal b ≤ 9 := by
      unfold digitVal
      have := h b (by simp)
      omega
    have hrec := ih (a * 10 + digitVal b) (fun x hx => h x (by simp [hx]))
    apply lt_of_lt_of_le hrec
    have hstep : a * 10 + digitVal b + 1 ≤ (a + 1) * 10 := by omega
    calc (a * 10 + digitVal b + 1) * 10 ^ bs2.length
        ≤ ((a + 1) * 10) * 10 ^ bs2.length := Nat.mul_le_mul_right _ hstep
      _ = (a + 1) * 10 ^ (bs2.length + 1) := by ring

/-- Digit strings denote values below `10 ^ length`. -/
theorem natOfDigits_lt {bs : List Char} (h : ∀ x ∈ bs, x.toNat ≤ 57) :
    natOfDigits bs < 10 ^ bs.length := by
  have := natOfDigits_go_lt bs 0 h
  simpa using this

/-- Bounds for the value of any shaped GPA capture. -/
theorem toFloatChars_shape_bounds {cap : List Char} (hs : GpaCapShape cap) {v : ℚ}
    (h : toFloatChars cap = some v) : 0 ≤ v ∧ v ≤ mkRat 499 100 := by
  obtain ⟨c, d, hc, hd, hcap⟩ := hs
  have hshape : ∃ bs : List Char, cap = c :: '.' :: bs ∧ bs ≠ [] ∧ bs.length ≤ 2 ∧
      ∀ x ∈ bs, 48 ≤ x.toNat ∧ x.toNat ≤ 57 := by
    rcases hcap with rfl | ⟨e, he, rfl⟩
    · exact ⟨[d], rfl, by simp, by simp, by
        intro x hx
        rw [List.mem_singleton.mp hx]
        exact hd⟩
    · exact ⟨[d, e], rfl, by simp, by simp, by
        intro x hx
        rcases List.mem_cons.mp hx with rfl | hx2
        · exact hd
        · rw [List.mem_singleton.mp hx2]
          exact he⟩
  obtain ⟨bs, rfl, hne, hlen, hdig⟩ := hshape
  rw [toFloatChars_digit_dot ⟨hc.1, by omega⟩ hdig hne] at h
  obtain rfl := Option.some.inj h.symm
  have hn1 : natOfDigits [c] ≤ 4 := by
    simp only [natOfDigits, List.foldl_cons, List.foldl_nil, Nat.zero_mul,
      Nat.zero_add]
    unfold digitVal
    omega
  have hn2 : natOfDigits bs < 10 ^ bs.length := natOfDigits_lt fun x hx => (hdig x hx).2
  have hlen1 : 1 ≤ bs.length := by
    cases bs with
    | nil => exact absurd rfl hne
    | cons _ _ => simp
  have hdpos : (0 : ℚ) < ((10 ^ bs.length : Nat) : ℚ) := by
    exact_mod_cast Nat.pow_pos (by norm_num : 0 < 10)
  rw [Rat.mkRat_eq_div, Rat.mkRat_eq_div]
  constructor
  · apply div_nonneg _ (le_of_lt hdpos)
    push_cast
    positivity
  · rw [div_le_div_iff hdpos (by norm_num)]
    have key : (natOfDigits [c] * 10 ^ bs.length + natOfDigits bs) * 100 ≤
        499 * 10 ^ bs.length := by
      have hL : bs.length = 1 ∨ bs.length = 2 := by omega
      rcases hL with hL | hL <;> rw [hL] at hn2 ⊢ <;> norm_num at hn2 ⊢ <;> omega
    push_cast
    exact_mod_cast key

/-- C3 counterexample: on the text `4.5` the GPA sub-extractor of
`extract_gpa_gre` returns 4.5, which lies outside the claimed closed
interval [0, 4] — the pattern bounds only the integer digit to 0–4, not
the value. -/
theorem c3_counterexample_gpa_above_four :
    (extract_gpa_gre "4.5").1 = some (mkRat 9 2) ∧ ¬(mkRat 9 2 ≤ mkRat 4 1) :=
  ⟨by decide, by decide⟩

/-- C3 amended: whenever the GPA sub-extractor of `extract_gpa_gre`
returns a value, that value lies in the closed interval [0, 4.99]
(integer digit 0–4, at most two decimals); numbers of 5.0 and above in
the text are never returned as the GPA. -/
theorem c3_amended_gpa_range (t : String) (v : ℚ)
    (h : (extract_gpa_gre t).1 = some v) : 0 ≤ v ∧ v ≤ mkRat 499 100 := by
  have h2 : (gpaSearch t.data).bind toFloatChars = some v := h
  obtain ⟨cap, hcap, hval⟩ := Option.bind_eq_some.mp h2
  exact toFloatChars_shape_bounds (gpaSearch_shape hcap) hval

/-- C3 witness: the amended range applied at a concrete extraction. -/
theorem c3_witness :
    (extract_gpa_gre "GPA 3.80").1 = some (mkRat 19 5) ∧
    (0 ≤ mkRat 19 5 ∧ mkRat 19 5 ≤ mkRat 499 100) :=
  ⟨by decide, c3_amended_gpa_range "GPA 3.80" (mkRat 19 5) (by decide)⟩

end GradCafe

/-! Sanity checks of the embedding against the behaviour of the source
(the date and extractor examples of the specification). -/

example : GradCafe.extract_term "Autumn 2026" = some "Fall 2026" := by decide
example : GradCafe.extract_term "F26" = some "Fall 2026" := by decide
example : GradCafe.extract_term "no term here" = none := by decide
example : GradCafe.extract_term ("Fall " ++ GradCafe.aposChar.toString ++ "26") = some "Fall 2026" := by decide
example : GradCafe.extract_status "Wait listed" = some "Waitlisted" := by decide
example : GradCafe.extract_status "ACCEPTED on 3 Jan" = some "Accepted" := by decide
example : GradCafe.extract_status "no decision" = none := by decide
example : GradCafe.extract_us_intl "Other" = none := by decide
example : GradCafe.extract_us_intl_m2 "Other" = some "Other" := by decide
example : GradCafe.extract_us_intl "American but International" = some "International" := by decide

example : GradCafe.extract_gpa_gre "GPA 3.80 GRE Quant 165 Verbal 158 AWA 4.5" =
    (some (mkRat 19 5), some (mkRat 165 1), some (mkRat 158 1), some (mkRat 9 2)) := by decide
example : (GradCafe.extract_gpa_gre "4.5").1 = some (mkRat 9 2) := by decide
example : GradCafe.extract_gpa_gre "no numbers" = (none, none, none, none) := by decide

example : GradCafe.parse_date (some "January 31, 2026") = some ⟨2026, 1, 31⟩ := by decide
example : GradCafe.parse_date (some "Feb 1, 2026") = some ⟨2026, 2, 1⟩ := by decide
example : GradCafe.parse_date (some "2026-02-01") = some ⟨2026, 2, 1⟩ := by decide
example : GradCafe.parse_date (some "02/01/2026") = some ⟨2026, 2, 1⟩ := by decide
example : GradCafe.parse_date (some "not a date") = none := by decide
example : GradCafe.parse_date (some "February 30, 2026") = none := by decide
example : GradCafe.normalize_degree (some "PhD in CS") = some "PhD" := by decide
example : GradCafe.normalize_degree (some "ms") = some "Masters" := by decide
